import Mathlib

/-!
Shallow embedding of the KIP-CUDA convolution engine (image container,
kernel descriptor, padding builder, sequential and CUDA convolution
strategies), translated from `src/image.cpp`, `src/kernel.cpp`,
`src/sequential/convolution.cpp` and `src/parallel/convolution.cu`.

Machine bytes (`uint8_t`) are modelled as `ℕ` values; a buffer is a
function `ℕ → ℕ` together with its semantic size `width*height*channels`,
and well-formed images satisfy `Image.valid` (every byte `≤ 255`).
`float` accumulation is modelled exactly over `ℚ`; all strategies perform
their additions in the same textual order, so exact arithmetic preserves
the comparisons made between them, and every concrete evaluation below
uses values that are exactly representable in binary floating point.
C++ `int` coordinates that can go negative are modelled as `ℤ`, with
`Int.tmod` for the C++ truncated `%`.
-/

/-- Padding policies, from `image.h` (`enum PaddingType`). -/
inductive PaddingType where
  | ZERO
  | REPLICATE
  | MIRROR
deriving DecidableEq, Repr

/-- The image container from `image.h`/`image.cpp`: width, height, channel
count, a layout flag (`is_SoA`: planar when true, interleaved when false)
and a flat byte buffer of semantic size `width*height*channels`. -/
structure Image where
  width : ℕ
  height : ℕ
  channels : ℕ
  is_SoA : Bool
  data : ℕ → ℕ

namespace Image

/-- `Image::get_size()`: `width * height * channels`. -/
def size (img : Image) : ℕ := img.width * img.height * img.channels

/-- A buffer standing for real `uint8_t` storage: every byte inside the
buffer is at most 255. -/
def valid (img : Image) : Prop := ∀ i, i < img.size → img.data i ≤ 255

/-- The 1D pixel index formula of `Image::operator()` (`image.cpp`):
planar (`SoA`): `channel*width*height + row*width + col`;
interleaved (`AoS`): `(row*width + col)*channels + channel`. -/
def pixelIndex (img : Image) (col row ch : ℕ) : ℕ :=
  if img.is_SoA then
    ch * img.width * img.height + row * img.width + col
  else
    (row * img.width + col) * img.channels + ch

/-- `Image::operator()(col,row,channel)`: bounds-checked access; `none`
models the thrown `std::invalid_argument("Invalid coordinates.")`. -/
def get (img : Image) (col row ch : ℤ) : Option ℕ :=
  if 0 ≤ col ∧ col < img.width ∧ 0 ≤ row ∧ row < img.height
      ∧ 0 ≤ ch ∧ ch < img.channels then
    some (img.data (img.pixelIndex col.toNat row.toNat ch.toNat))
  else
    none

/-- `Image.get` with default 0 for the (never exercised) error branch. -/
def getD (img : Image) (col row ch : ℤ) : ℕ :=
  (img.get col row ch).getD 0

/-- The unchecked buffer read `d_input[pixel_index]` used by the CUDA
device helper `get_pixel_value` (`parallel/convolution.cu`): the same
index formula, without any bounds check. -/
def read (img : Image) (col row ch : ℤ) : ℕ :=
  img.data (if img.is_SoA then
      ch * img.width * img.height + row * img.width + col
    else
      (row * img.width + col) * img.channels + ch).toNat

/-- Decode a 1D buffer index back to `(col, row, channel)`; this is the
inverse of the `pixelIndex` formula for in-range indices. -/
def decodeIdx (w h c : ℕ) (soa : Bool) (i : ℕ) : ℕ × ℕ × ℕ :=
  if soa then (i % (w * h) % w, i % (w * h) / w, i / (w * h))
  else (i / c % w, i / c / w, i % c)

/-- Build an image by writing the pixel value `f col row ch` at every
in-range coordinate triple, over a zero-initialised buffer
(`new uint8_t[size]{0}` followed by a full triple loop of
`operator()` writes). -/
def ofPixels (w h c : ℕ) (soa : Bool) (f : ℕ → ℕ → ℕ → ℕ) : Image :=
  ⟨w, h, c, soa, fun i =>
    if i < w * h * c then
      (fun t : ℕ × ℕ × ℕ => f t.1 t.2.1 t.2.2) (decodeIdx w h c soa i)
    else 0⟩

/-- `Image::operator==` (`image.cpp`): dimensions compared, then `memcmp`
over the `size` bytes of the buffers; the layout flag is not compared. -/
def eqOp (a b : Image) : Bool :=
  if a.width = b.width ∧ a.height = b.height ∧ a.channels = b.channels then
    (List.range a.size).all (fun i => a.data i = b.data i)
  else
    false

/-- `Image::AoS_to_SoA` (`image.cpp`): repermute the buffer so that
`data_SoA[ch*w*h + row*w + col] = data[(row*w + col)*c + ch]`. -/
def AoS_to_SoA (img : Image) : Image :=
  { img with data := fun i =>
      if i < img.size then
        img.data (i % (img.width * img.height) * img.channels
          + i / (img.width * img.height))
      else 0 }

/-- `Image::SoA_to_AoS` (`image.cpp`): repermute the buffer so that
`data_AoS[(row*w + col)*c + ch] = data[ch*w*h + row*w + col]`. -/
def SoA_to_AoS (img : Image) : Image :=
  { img with data := fun i =>
      if i < img.size then
        img.data (i % img.channels * (img.width * img.height)
          + i / img.channels)
      else 0 }

end Image

/-- The `clamp` macro of `image.cpp` applied to a `REPLICATE` coordinate:
`std::min(std::max(start, x), end)`. -/
def clampI (start x e : ℤ) : ℤ := min (max start x) e

/-- The MIRROR fold of `Image::padding` (`image.cpp` lines 188-193):
`m = std::abs(v % (2*dim))` (C++ truncated `%`), then
`m = std::min(m, ((2*dim) - 1) - (m + 1))`. -/
def mirrorFold (v : ℤ) (dim : ℕ) : ℤ :=
  let m : ℤ := |v.tmod (2 * (dim : ℤ))|
  min m ((2 * (dim : ℤ) - 1) - (m + 1))

/-- The value written by `Image::padding` at destination coordinate
`(x, y, channel)`: `col = x - padding_width`, `row = y - padding_height`;
copy when `(col,row)` is inside the source raster, otherwise synthesize a
border value according to the padding policy. -/
def paddedPixel (img : Image) (pw ph : ℕ) (pt : PaddingType) (x y ch : ℕ) : ℕ :=
  let col : ℤ := (x : ℤ) - pw
  let row : ℤ := (y : ℤ) - ph
  if 0 ≤ col ∧ col < img.width ∧ 0 ≤ row ∧ row < img.height then
    img.getD col row ch
  else
    match pt with
    | .ZERO => 0
    | .REPLICATE =>
        img.getD (clampI 0 col ((img.width : ℤ) - 1))
          (clampI 0 row ((img.height : ℤ) - 1)) ch
    | .MIRROR =>
        img.getD (mirrorFold col img.width) (mirrorFold row img.height) ch

/-- `Image::padding(padding_width, padding_height, padding_type)`: a fresh
raster of size `(width + padding_width*2, height + padding_height*2)` with
the same channels and layout, filled by `paddedPixel` at every destination
coordinate. -/
def Image.padding (img : Image) (pw ph : ℕ) (pt : PaddingType) : Image :=
  Image.ofPixels (img.width + pw * 2) (img.height + ph * 2) img.channels
    img.is_SoA (paddedPixel img pw ph pt)

/-- The kernel descriptor from `kernel.h`/`kernel.cpp`: a square, odd,
positive weight matrix; `float` weights modelled over `ℚ`. -/
structure KernelQ where
  width : ℕ
  height : ℕ
  data : ℕ → ℚ

/-- `Kernel::operator()(col,row)`: row-major weight access
`data[row * width + col]`. -/
def KernelQ.get (k : KernelQ) (kx ky : ℕ) : ℚ := k.data (ky * k.width + kx)

namespace Kernel

/-- `Kernel::Kernel(width, height)` (`kernel.cpp` lines 10-32): reject
non-positive dimensions, then even dimensions, then unequal dimensions,
in that order; `Except.error` models the thrown `std::invalid_argument`.
The weight data is attached to model the two-argument constructor
`Kernel(width, height, data)`, which bulk-copies the caller's weights. -/
def construct (w h : ℤ) (d : ℕ → ℚ) : Except String KernelQ :=
  if w ≤ 0 ∨ h ≤ 0 then .error "Kernel dimensions must be greater than 0."
  else if w.tmod 2 = 0 ∨ h.tmod 2 = 0 then .error "Kernel dimensions must be odd."
  else if w ≠ h then .error "Kernel dimensions must be equal."
  else .ok ⟨w.toNat, h.toNat, d⟩

/-- `Kernel::custom_kernel(size, data, normalize)` (`kernel.cpp` lines
134-149): when `normalize` is set, the caller-supplied array itself is
rescaled in place (`data[i] /= sum` over the `size*size` entries, whose
sum the loop accumulates; the caller guarantees the array length), and
only then is the constructor invoked on that array.  The first component
is the caller's array after the call; the second is the constructed
kernel. -/
def custom_kernel (size : ℤ) (data : List ℚ) (normalize : Bool) :
    List ℚ × Except String KernelQ :=
  let post := if normalize then data.map (fun v => v / data.sum) else data
  (post, construct size size (fun i => post.getD i 0))

end Kernel

/-- The stored output byte of every convolution strategy:
`(uint8_t)clamp(0.0f, output_value, 255.0f)` — clamp into `[0, 255]`,
then convert to `uint8_t` (truncation toward zero, which on the clamped
non-negative value is the floor). -/
def clampStore (v : ℚ) : ℕ := (⌊min (max 0 v) 255⌋).toNat

/-- The accumulator of `Sequential::Convolution::convolve`
(`sequential/convolution.cpp` lines 33-46) for output pixel `(x,y)`,
channel `ch`: sum over the kernel window of
`padded(x + kx - floor(kernel_width/2) + padding_width,
        y + ky - floor(kernel_width/2) + padding_height, ch) * kernel(kx, ky)`
(the row offset uses `kernel_width`, exactly as in the source). -/
def seqPixel (padded : Image) (ker : KernelQ) (pw ph : ℕ) (x y ch : ℕ) : ℚ :=
  ∑ ky ∈ Finset.range ker.height, ∑ kx ∈ Finset.range ker.width,
    (padded.getD ((x : ℤ) + kx - (ker.width / 2 : ℕ) + pw)
        ((y : ℤ) + ky - (ker.width / 2 : ℕ) + ph) ch : ℚ) * ker.get kx ky

namespace Sequential

/-- `Sequential::Convolution::convolve(image, kernel, padding_type)`:
pad by the kernel half-sizes, then store
`(uint8_t)clamp(0.0f, value, 255.0f)` at every output coordinate. -/
def convolve (img : Image) (ker : KernelQ) (pt : PaddingType) : Image :=
  let pw := ker.width / 2
  let ph := ker.height / 2
  let padded := img.padding pw ph pt
  Image.ofPixels img.width img.height img.channels img.is_SoA
    (fun x y ch => clampStore (seqPixel padded ker pw ph x y ch))

end Sequential

/-- `TILE_WIDTH` from `params.h`: threads per block edge, and the tile
edge of the shared-memory strategy. -/
def TILE_WIDTH : ℕ := 16

/-- The constant-memory kernel table `c_kernel` after
`cudaMemcpyToSymbol(c_kernel, h_kernel, kernel_size)`: the first
`kernel_width * kernel_height` floats hold the kernel weights; the rest
of the `MAX_MASK_WIDTH * MAX_MASK_WIDTH` table is unwritten (modelled as
0, never read by the kernels). -/
def cKernelTable (ker : KernelQ) : ℕ → ℚ := fun i =>
  if i < ker.width * ker.height then ker.data i else 0

/-- The accumulator of `convolution_kernel_global` (and, with the
constant table, of `convolution_kernel_constant`) for output pixel
`(x,y)`, channel `ch` (`parallel/convolution.cu` lines 86-95): the same
window sum as the sequential strategy, with the row offset computed from
`kernel_height` and the padded buffer read unchecked. -/
def globalPixel (padded : Image) (kerTab : ℕ → ℚ) (kw kh pw ph : ℕ)
    (x y ch : ℕ) : ℚ :=
  ∑ ky ∈ Finset.range kh, ∑ kx ∈ Finset.range kw,
    (padded.read ((x : ℤ) + kx - (kw / 2 : ℕ) + pw)
        ((y : ℤ) + ky - (kh / 2 : ℕ) + ph) ch : ℚ) * kerTab (ky * kw + kx)

/-- Shared-memory tile width `blockDim.x + (kernel_width - 1)`
(`parallel/convolution.cu` line 154). -/
def sWidth (kw : ℕ) : ℕ := TILE_WIDTH + (kw - 1)

/-- Shared-memory tile height `blockDim.y + (kernel_height - 1)`. -/
def sHeight (kh : ℕ) : ℕ := TILE_WIDTH + (kh - 1)

/-- The value staged into shared-memory cell `sIndex` by
`convolution_kernel_shared` (`parallel/convolution.cu` lines 166-204):
decompose `sIndex` against the tile width, map to the padded-image
coordinate, bounds-check, and read (or write 0).  `yOff` is the offset
added to the row coordinate: the first staging batch adds
`padding_width` (source line 172), the second `padding_height`. -/
def stagedValue (padded : Image) (kw kh pw yOff bx bY ch sIndex : ℕ) : ℕ :=
  let sx := sIndex % sWidth kw
  let sy := sIndex / sWidth kw
  let gx : ℤ := (bx : ℤ) * (TILE_WIDTH : ℕ) + sx - (kw / 2 : ℕ) + pw
  let gy : ℤ := (bY : ℤ) * (TILE_WIDTH : ℕ) + sy - (kh / 2 : ℕ) + yOff
  if 0 ≤ gx ∧ gx < padded.width ∧ 0 ≤ gy ∧ gy < padded.height then
    padded.read gx gy ch
  else 0

/-- The shared-memory contents after the staging phase and its barrier:
each of the `TILE_WIDTH²` threads of the block writes cell
`ty*TILE_WIDTH + tx` and (if still inside the tile) cell
`ty*TILE_WIDTH + tx + TILE_WIDTH²`, so exactly the cells below
`2*TILE_WIDTH²` (and below the tile extent) are staged; any cell beyond
that is never written and holds whatever the launch left there
(`junk`). -/
def sharedMem (padded : Image) (kw kh pw ph bx bY ch : ℕ) (junk : ℕ → ℕ)
    (sIndex : ℕ) : ℕ :=
  if sIndex < TILE_WIDTH * TILE_WIDTH then
    stagedValue padded kw kh pw pw bx bY ch sIndex
  else if sIndex < 2 * (TILE_WIDTH * TILE_WIDTH)
      ∧ sIndex < sWidth kw * sHeight kh then
    stagedValue padded kw kh pw ph bx bY ch sIndex
  else junk sIndex

/-- The accumulator of `convolution_kernel_shared` for the thread
`(tx,ty) = (x % TILE_WIDTH, y % TILE_WIDTH)` of block
`(x / TILE_WIDTH, y / TILE_WIDTH)`: window sum over the staged tile at
`s_data[(ty+ky)*s_width + (tx+kx)]` with the constant-memory weights. -/
def sharedPixel (padded : Image) (ker : KernelQ) (pw ph : ℕ)
    (junk : ℕ → ℕ) (x y ch : ℕ) : ℚ :=
  ∑ ky ∈ Finset.range ker.height, ∑ kx ∈ Finset.range ker.width,
    (sharedMem padded ker.width ker.height pw ph (x / TILE_WIDTH)
        (y / TILE_WIDTH) ch junk
        ((y % TILE_WIDTH + ky) * sWidth ker.width + (x % TILE_WIDTH + kx)) : ℚ)
      * cKernelTable ker (ky * ker.width + kx)

namespace Parallel

/-- `Parallel::Convolution::convolve_global`: pad by the kernel
half-sizes, run `convolution_kernel_global` over a grid covering every
output pixel, and collect the stored bytes. -/
def convolve_global (img : Image) (ker : KernelQ) (pt : PaddingType) : Image :=
  let pw := ker.width / 2
  let ph := ker.height / 2
  let padded := img.padding pw ph pt
  Image.ofPixels img.width img.height img.channels img.is_SoA
    (fun x y ch =>
      clampStore (globalPixel padded ker.data ker.width ker.height pw ph x y ch))

/-- `Parallel::Convolution::convolve_constant`: as `convolve_global`, but
the weights are read from the pre-staged constant table `c_kernel`. -/
def convolve_constant (img : Image) (ker : KernelQ) (pt : PaddingType) : Image :=
  let pw := ker.width / 2
  let ph := ker.height / 2
  let padded := img.padding pw ph pt
  Image.ofPixels img.width img.height img.channels img.is_SoA
    (fun x y ch =>
      clampStore (globalPixel padded (cKernelTable ker) ker.width ker.height pw ph x y ch))

/-- `Parallel::Convolution::convolve_shared`: run
`convolution_kernel_shared` over the grid; `junk` is the initial contents
of the dynamically allocated shared-memory buffer (the bytes any unstaged
cell still holds when it is read). -/
def convolve_shared (img : Image) (ker : KernelQ) (pt : PaddingType)
    (junk : ℕ → ℕ) : Image :=
  let pw := ker.width / 2
  let ph := ker.height / 2
  let padded := img.padding pw ph pt
  Image.ofPixels img.width img.height img.channels img.is_SoA
    (fun x y ch => clampStore (sharedPixel padded ker pw ph junk x y ch))

/-- `Parallel::Convolution::convolve_pinned`: identical device math — it
launches the same `convolution_kernel_shared` with the same grid on a
single stream, only staging the host transfers through pinned buffers. -/
def convolve_pinned (img : Image) (ker : KernelQ) (pt : PaddingType)
    (junk : ℕ → ℕ) : Image :=
  convolve_shared img ker pt junk

end Parallel

theorem sanity_pixelIndex :
    (Image.ofPixels 2 2 3 false (fun c r ch => c + 10 * r + 100 * ch)).data 7 = 110 := by
  decide

theorem sanity_mirror : mirrorFold (-1) 4 = 1 ∧ mirrorFold 4 4 = 2 := by decide

/-! ### Index arithmetic: the layout formulas are inverse to `decodeIdx` -/

lemma two_dim_lt {p q P Q : ℕ} (hp : p < P) (hq : q < Q) : p * Q + q < P * Q := by
  calc p * Q + q < p * Q + Q := by omega
    _ = (p + 1) * Q := by ring
    _ ≤ P * Q := Nat.mul_le_mul_right Q hp

@[simp] lemma Image.ofPixels_width {w h c : ℕ} {soa : Bool} {f : ℕ → ℕ → ℕ → ℕ} :
    (Image.ofPixels w h c soa f).width = w := rfl

@[simp] lemma Image.ofPixels_height {w h c : ℕ} {soa : Bool} {f : ℕ → ℕ → ℕ → ℕ} :
    (Image.ofPixels w h c soa f).height = h := rfl

@[simp] lemma Image.ofPixels_channels {w h c : ℕ} {soa : Bool} {f : ℕ → ℕ → ℕ → ℕ} :
    (Image.ofPixels w h c soa f).channels = c := rfl

@[simp] lemma Image.ofPixels_is_SoA {w h c : ℕ} {soa : Bool} {f : ℕ → ℕ → ℕ → ℕ} :
    (Image.ofPixels w h c soa f).is_SoA = soa := rfl

lemma Image.ofPixels_data {w h c : ℕ} {soa : Bool} {f : ℕ → ℕ → ℕ → ℕ} {i : ℕ} :
    (Image.ofPixels w h c soa f).data i =
      if i < w * h * c then
        (fun t : ℕ × ℕ × ℕ => f t.1 t.2.1 t.2.2) (Image.decodeIdx w h c soa i)
      else 0 := rfl

lemma Image.pixelIndex_lt (img : Image) {col row ch : ℕ} (hc : col < img.width)
    (hr : row < img.height) (hch : ch < img.channels) :
    img.pixelIndex col row ch < img.size := by
  have hrc : row * img.width + col < img.height * img.width := two_dim_lt hr hc
  unfold Image.pixelIndex Image.size
  cases img.is_SoA with
  | true =>
      rw [if_pos rfl]
      have h1 : ch * (img.width * img.height) + (row * img.width + col)
          < img.channels * (img.width * img.height) := by
        refine two_dim_lt hch ?_
        calc row * img.width + col < img.height * img.width := hrc
          _ = img.width * img.height := Nat.mul_comm _ _
      calc ch * img.width * img.height + row * img.width + col
          = ch * (img.width * img.height) + (row * img.width + col) := by ring
        _ < img.channels * (img.width * img.height) := h1
        _ = img.width * img.height * img.channels := by ring
  | false =>
      rw [if_neg Bool.false_ne_true]
      have h1 : (row * img.width + col) * img.channels + ch
          < img.height * img.width * img.channels :=
        two_dim_lt hrc hch
      calc (row * img.width + col) * img.channels + ch
          < img.height * img.width * img.channels := h1
        _ = img.width * img.height * img.channels := by ring

lemma Image.decodeIdx_pixelIndex (img : Image) {col row ch : ℕ}
    (hc : col < img.width) (hr : row < img.height) (hch : ch < img.channels) :
    Image.decodeIdx img.width img.height img.channels img.is_SoA
      (img.pixelIndex col row ch) = (col, row, ch) := by
  have hw : 0 < img.width := by omega
  have hwh : 0 < img.width * img.height := Nat.mul_pos hw (by omega)
  have hrc : row * img.width + col < img.width * img.height := by
    calc row * img.width + col < img.height * img.width := two_dim_lt hr hc
      _ = img.width * img.height := Nat.mul_comm _ _
  unfold Image.pixelIndex Image.decodeIdx
  cases img.is_SoA with
  | true =>
      rw [if_pos rfl, if_pos rfl]
      have hidx : ch * img.width * img.height + row * img.width + col
          = img.width * img.height * ch + (row * img.width + col) := by ring
      rw [hidx]
      have hmod : (img.width * img.height * ch + (row * img.width + col))
          % (img.width * img.height) = row * img.width + col := by
        rw [Nat.mul_add_mod, Nat.mod_eq_of_lt hrc]
      have hdiv : (img.width * img.height * ch + (row * img.width + col))
          / (img.width * img.height) = ch := by
        rw [Nat.mul_add_div hwh, Nat.div_eq_of_lt hrc, Nat.add_zero]
      rw [hmod, hdiv]
      have hrow : row * img.width + col = img.width * row + col := by ring
      rw [hrow, Nat.mul_add_mod, Nat.mod_eq_of_lt hc, Nat.mul_add_div hw,
        Nat.div_eq_of_lt hc, Nat.add_zero]
  | false =>
      rw [if_neg Bool.false_ne_true, if_neg Bool.false_ne_true]
      have hch0 : 0 < img.channels := by omega
      have hidx : (row * img.width + col) * img.channels + ch
          = img.channels * (row * img.width + col) + ch := by ring
      rw [hidx, Nat.mul_add_mod, Nat.mod_eq_of_lt hch, Nat.mul_add_div hch0,
        Nat.div_eq_of_lt hch, Nat.add_zero]
      have hrow : row * img.width + col = img.width * row + col := by ring
      rw [hrow, Nat.mul_add_mod, Nat.mod_eq_of_lt hc, Nat.mul_add_div hw,
        Nat.div_eq_of_lt hc, Nat.add_zero]

lemma Image.decodeIdx_lt_and_encode (img : Image) {i : ℕ} (hi : i < img.size) :
    (Image.decodeIdx img.width img.height img.channels img.is_SoA i).1 < img.width ∧
    (Image.decodeIdx img.width img.height img.channels img.is_SoA i).2.1 < img.height ∧
    (Image.decodeIdx img.width img.height img.channels img.is_SoA i).2.2 < img.channels ∧
    img.pixelIndex (Image.decodeIdx img.width img.height img.channels img.is_SoA i).1
      (Image.decodeIdx img.width img.height img.channels img.is_SoA i).2.1
      (Image.decodeIdx img.width img.height img.channels img.is_SoA i).2.2 = i := by
  have hsz : 0 < img.size := by omega
  have hw : 0 < img.width := by
    by_contra h
    have : img.width = 0 := by omega
    simp [Image.size, this] at hi
  have hh : 0 < img.height := by
    by_contra h
    have : img.height = 0 := by omega
    simp [Image.size, this] at hi
  have hc : 0 < img.channels := by
    by_contra h
    have : img.channels = 0 := by omega
    simp [Image.size, this] at hi
  have hwh : 0 < img.width * img.height := Nat.mul_pos hw hh
  unfold Image.decodeIdx Image.pixelIndex
  cases img.is_SoA with
  | true =>
      rw [if_pos rfl, if_pos rfl]
      have hmodlt : i % (img.width * img.height) < img.width * img.height :=
        Nat.mod_lt _ hwh
      have h1 : i % (img.width * img.height) % img.width < img.width :=
        Nat.mod_lt _ hw
      have h2 : i % (img.width * img.height) / img.width < img.height := by
        rw [Nat.div_lt_iff_lt_mul hw]
        calc i % (img.width * img.height) < img.width * img.height := hmodlt
          _ = img.height * img.width := Nat.mul_comm _ _
      have h3 : i / (img.width * img.height) < img.channels := by
        rw [Nat.div_lt_iff_lt_mul hwh]
        calc i < img.width * img.height * img.channels := hi
          _ = img.channels * (img.width * img.height) := by ring
      refine ⟨h1, h2, h3, ?_⟩
      have hsplit : i % (img.width * img.height) / img.width * img.width
          + i % (img.width * img.height) % img.width = i % (img.width * img.height) := by
        rw [Nat.mul_comm]
        exact Nat.div_add_mod _ _
      calc i / (img.width * img.height) * img.width * img.height
            + i % (img.width * img.height) / img.width * img.width
            + i % (img.width * img.height) % img.width
          = i / (img.width * img.height) * (img.width * img.height)
            + (i % (img.width * img.height) / img.width * img.width
              + i % (img.width * img.height) % img.width) := by ring
        _ = i / (img.width * img.height) * (img.width * img.height)
            + i % (img.width * img.height) := by rw [hsplit]
        _ = i := by rw [Nat.mul_comm]; exact Nat.div_add_mod _ _
  | false =>
      rw [if_neg Bool.false_ne_true, if_neg Bool.false_ne_true]
      have h1 : i / img.channels % img.width < img.width := Nat.mod_lt _ hw
      have h2 : i / img.channels / img.width < img.height := by
        rw [Nat.div_lt_iff_lt_mul hw, Nat.div_lt_iff_lt_mul hc]
        calc i < img.width * img.height * img.channels := hi
          _ = img.height * img.width * img.channels := by ring
      have h3 : i % img.channels < img.channels := Nat.mod_lt _ hc
      refine ⟨h1, h2, h3, ?_⟩
      have hsplit : i / img.channels / img.width * img.width
          + i / img.channels % img.width = i / img.channels := by
        rw [Nat.mul_comm]
        exact Nat.div_add_mod _ _
      calc (i / img.channels / img.width * img.width + i / img.channels % img.width)
            * img.channels + i % img.channels
          = i / img.channels * img.channels + i % img.channels := by rw [hsplit]
        _ = i := by rw [Nat.mul_comm]; exact Nat.div_add_mod _ _

lemma Image.get_some (img : Image) {col row ch : ℕ} (hc : col < img.width)
    (hr : row < img.height) (hch : ch < img.channels) :
    img.get col row ch = some (img.data (img.pixelIndex col row ch)) := by
  have hcond : 0 ≤ (col : ℤ) ∧ (col : ℤ) < img.width ∧ 0 ≤ (row : ℤ)
      ∧ (row : ℤ) < img.height ∧ 0 ≤ (ch : ℤ) ∧ (ch : ℤ) < img.channels :=
    ⟨by positivity, by exact_mod_cast hc, by positivity, by exact_mod_cast hr,
      by positivity, by exact_mod_cast hch⟩
  rw [Image.get, if_pos hcond]
  simp only [Int.toNat_natCast]

lemma Image.data_pixelIndex_ofPixels {w h c : ℕ} {soa : Bool}
    {f : ℕ → ℕ → ℕ → ℕ} {col row ch : ℕ}
    (hc : col < w) (hr : row < h) (hch : ch < c) :
    (Image.ofPixels w h c soa f).data
      ((Image.ofPixels w h c soa f).pixelIndex col row ch) = f col row ch := by
  have hlt : (Image.ofPixels w h c soa f).pixelIndex col row ch
      < (Image.ofPixels w h c soa f).size :=
    (Image.ofPixels w h c soa f).pixelIndex_lt hc hr hch
  have hdec : Image.decodeIdx w h c soa
      ((Image.ofPixels w h c soa f).pixelIndex col row ch) = (col, row, ch) :=
    (Image.ofPixels w h c soa f).decodeIdx_pixelIndex hc hr hch
  rw [Image.ofPixels_data, if_pos (by simpa [Image.size] using hlt), hdec]

lemma Image.get_ofPixels {w h c : ℕ} {soa : Bool} {f : ℕ → ℕ → ℕ → ℕ}
    {col row ch : ℕ} (hc : col < w) (hr : row < h) (hch : ch < c) :
    (Image.ofPixels w h c soa f).get col row ch = some (f col row ch) := by
  rw [Image.get_some (Image.ofPixels w h c soa f) hc hr hch,
    Image.data_pixelIndex_ofPixels hc hr hch]

lemma Image.getD_ofPixels {w h c : ℕ} {soa : Bool} {f : ℕ → ℕ → ℕ → ℕ}
    {col row ch : ℕ} (hc : col < w) (hr : row < h) (hch : ch < c) :
    (Image.ofPixels w h c soa f).getD col row ch = f col row ch := by
  rw [Image.getD, Image.get_ofPixels hc hr hch, Option.getD_some]

lemma Image.getD_eq_data (img : Image) {col row ch : ℕ} (hc : col < img.width)
    (hr : row < img.height) (hch : ch < img.channels) :
    img.getD col row ch = img.data (img.pixelIndex col row ch) := by
  rw [Image.getD, Image.get_some img hc hr hch, Option.getD_some]

lemma Image.read_eq_getD (img : Image) {col row ch : ℤ}
    (hc0 : 0 ≤ col) (hc : col < img.width) (hr0 : 0 ≤ row) (hr : row < img.height)
    (hch0 : 0 ≤ ch) (hch : ch < img.channels) :
    img.read col row ch = img.getD col row ch := by
  lift col to ℕ using hc0
  lift row to ℕ using hr0
  lift ch to ℕ using hch0
  have hc : col < img.width := by exact_mod_cast hc
  have hr : row < img.height := by exact_mod_cast hr
  have hch : ch < img.channels := by exact_mod_cast hch
  rw [Image.getD_eq_data img hc hr hch, Image.read, Image.pixelIndex]
  congr 1
  cases img.is_SoA with
  | true =>
      rw [if_pos rfl, if_pos rfl]
      norm_cast
  | false =>
      rw [if_neg Bool.false_ne_true, if_neg Bool.false_ne_true]
      norm_cast

lemma Image.eqOp_eq_true_iff {a b : Image} :
    a.eqOp b = true ↔ (a.width = b.width ∧ a.height = b.height
      ∧ a.channels = b.channels ∧ ∀ i, i < a.size → a.data i = b.data i) := by
  rw [Image.eqOp]
  constructor
  · intro hyp
    by_cases hdims : a.width = b.width ∧ a.height = b.height ∧ a.channels = b.channels
    · rw [if_pos hdims] at hyp
      refine ⟨hdims.1, hdims.2.1, hdims.2.2, ?_⟩
      intro i hi
      have := List.all_eq_true.mp hyp i (List.mem_range.mpr hi)
      exact_mod_cast of_decide_eq_true this
    · rw [if_neg hdims] at hyp
      exact absurd hyp (by simp)
  · rintro ⟨h1, h2, h3, h4⟩
    rw [if_pos ⟨h1, h2, h3⟩]
    refine List.all_eq_true.mpr ?_
    intro i hi
    exact decide_eq_true (h4 i (List.mem_range.mp hi))

/-! ### Kernel construction -/

lemma Kernel.construct_eq_ok_iff (w h : ℤ) (d : ℕ → ℚ) (k : KernelQ) :
    Kernel.construct w h d = .ok k ↔
      (w = h ∧ 0 < w ∧ w % 2 = 1 ∧ k = ⟨w.toNat, h.toNat, d⟩) := by
  unfold Kernel.construct
  by_cases h1 : w ≤ 0 ∨ h ≤ 0
  · rw [if_pos h1]
    constructor
    · intro hk; cases hk
    · rintro ⟨hwh, hw, -, -⟩; omega
  rw [if_neg h1]
  push_neg at h1
  have hw2 : w.tmod 2 = w % 2 := Int.tmod_eq_emod (by omega) (by norm_num)
  have hh2 : h.tmod 2 = h % 2 := Int.tmod_eq_emod (by omega) (by norm_num)
  by_cases h2 : w.tmod 2 = 0 ∨ h.tmod 2 = 0
  · rw [if_pos h2]
    constructor
    · intro hk; cases hk
    · rintro ⟨hwh, -, hodd, -⟩; rw [hw2, hh2] at h2; omega
  rw [if_neg h2]
  push_neg at h2
  by_cases h3 : w ≠ h
  · rw [if_pos h3]
    constructor
    · intro hk; cases hk
    · rintro ⟨hwh, -, -, -⟩; exact absurd hwh h3
  rw [if_neg h3]
  push_neg at h3
  constructor
  · intro hk
    refine ⟨h3, h1.1, ?_, (Except.ok.inj hk).symm⟩
    rw [hw2] at h2; omega
  · rintro ⟨-, -, -, hk⟩; rw [hk]

/-- C4: Kernel construction succeeds exactly for equal, odd, positive
dimensions (failures are the `InvalidDimensions`-style errors thrown by
the constructor), and every constructed kernel value carries equal, odd,
positive dimensions. -/
theorem C4_kernel_construct_validation (w h : ℤ) (d : ℕ → ℚ) :
    ((∃ k, Kernel.construct w h d = .ok k) ↔ (w = h ∧ 0 < w ∧ w % 2 = 1)) ∧
    (∀ k, Kernel.construct w h d = .ok k →
      k.width = k.height ∧ k.width % 2 = 1 ∧ 0 < k.width) := by
  constructor
  · constructor
    · rintro ⟨k, hk⟩
      have := (Kernel.construct_eq_ok_iff w h d k).mp hk
      exact ⟨this.1, this.2.1, this.2.2.1⟩
    · rintro ⟨hwh, hw, hodd⟩
      exact ⟨⟨w.toNat, h.toNat, d⟩,
        (Kernel.construct_eq_ok_iff w h d _).mpr ⟨hwh, hw, hodd, rfl⟩⟩
  · intro k hk
    obtain ⟨hwh, hw, hodd, hkk⟩ := (Kernel.construct_eq_ok_iff w h d k).mp hk
    rw [hkk]
    refine ⟨by rw [hwh], ?_, ?_⟩ <;> simp only [] <;> omega

/-- Witness for C4 at the concrete dimensions 3×3 (succeeds) — the
failure direction of the equivalence at 4×4 and at 3×5. -/
theorem C4_kernel_construct_validation_witness :
    (∃ k, Kernel.construct 3 3 (fun _ => 1) = .ok k) ∧
    ¬ (∃ k, Kernel.construct 4 4 (fun _ => 1) = .ok k) ∧
    ¬ (∃ k, Kernel.construct 3 5 (fun _ => 1) = .ok k) := by
  refine ⟨(C4_kernel_construct_validation 3 3 (fun _ => 1)).1.mpr (by norm_num), ?_, ?_⟩
  · intro hex
    have := (C4_kernel_construct_validation 4 4 (fun _ => 1)).1.mp hex
    norm_num at this
  · intro hex
    have := (C4_kernel_construct_validation 3 5 (fun _ => 1)).1.mp hex
    norm_num at this

/-! ### Layout conversion and image equality -/

/-- C6: converting the layout twice — `AoS_to_SoA` (interleaved to
planar) followed by `SoA_to_AoS` (planar to interleaved) — yields a
raster whose buffer is byte-identical to the original, as compared by
the image equality operator. -/
theorem C6_convert_layout_round_trip (img : Image) :
    ((img.AoS_to_SoA).SoA_to_AoS).eqOp img = true := by
  rw [Image.eqOp_eq_true_iff]
  refine ⟨rfl, rfl, rfl, ?_⟩
  intro i hi
  have hsz : ((img.AoS_to_SoA).SoA_to_AoS).size = img.size := rfl
  rw [hsz] at hi
  have hc : 0 < img.channels := by
    by_contra hc
    have : img.channels = 0 := by omega
    simp [Image.size, this] at hi
  have hwh : 0 < img.width * img.height := by
    by_contra hwh
    have hz : img.width * img.height = 0 := by omega
    unfold Image.size at hi
    rw [hz, Nat.zero_mul] at hi
    exact Nat.not_lt_zero i hi
  have hdivlt : i / img.channels < img.width * img.height := by
    rw [Nat.div_lt_iff_lt_mul hc]
    calc i < img.size := hi
      _ = img.width * img.height * img.channels := rfl
  have hjlt : i % img.channels * (img.width * img.height) + i / img.channels
      < img.size := by
    calc i % img.channels * (img.width * img.height) + i / img.channels
        < img.channels * (img.width * img.height) :=
          two_dim_lt (Nat.mod_lt _ hc) hdivlt
      _ = img.size := by unfold Image.size; ring
  show (if i < (img.AoS_to_SoA).size then
      (img.AoS_to_SoA).data
        (i % (img.AoS_to_SoA).channels
            * ((img.AoS_to_SoA).width * (img.AoS_to_SoA).height)
          + i / (img.AoS_to_SoA).channels)
    else 0) = img.data i
  rw [if_pos (show i < (img.AoS_to_SoA).size from hi)]
  show (if (i % img.channels * (img.width * img.height) + i / img.channels)
        < img.size then
      img.data ((i % img.channels * (img.width * img.height) + i / img.channels)
          % (img.width * img.height) * img.channels
        + (i % img.channels * (img.width * img.height) + i / img.channels)
          / (img.width * img.height))
    else 0) = img.data i
  rw [if_pos hjlt]
  congr 1
  have hcomm : i % img.channels * (img.width * img.height) + i / img.channels
      = img.width * img.height * (i % img.channels) + i / img.channels := by ring
  rw [hcomm, Nat.mul_add_mod, Nat.mod_eq_of_lt hdivlt, Nat.mul_add_div hwh,
    Nat.div_eq_of_lt hdivlt, Nat.add_zero]
  calc i / img.channels * img.channels + i % img.channels
      = img.channels * (i / img.channels) + i % img.channels := by ring
    _ = i := Nat.div_add_mod i img.channels

/-- C10: the image equality operator compares the three dimensions and
the `size` buffer bytes and nothing else: it ignores the layout tag
(`is_SoA`), and it is false whenever any of the three dimensions
differ. -/
theorem C10_image_equality_ignores_layout :
    (∀ a b : Image, a.width = b.width → a.height = b.height →
      a.channels = b.channels → (∀ i, i < a.size → a.data i = b.data i) →
      a.eqOp b = true) ∧
    (∀ img : Image, img.eqOp { img with is_SoA := !img.is_SoA } = true) ∧
    (∀ a b : Image,
      (a.width ≠ b.width ∨ a.height ≠ b.height ∨ a.channels ≠ b.channels) →
      a.eqOp b = false) := by
  refine ⟨?_, ?_, ?_⟩
  · intro a b h1 h2 h3 h4
    exact Image.eqOp_eq_true_iff.mpr ⟨h1, h2, h3, h4⟩
  · intro img
    exact Image.eqOp_eq_true_iff.mpr ⟨rfl, rfl, rfl, fun i _ => rfl⟩
  · intro a b hdiff
    rw [Image.eqOp, if_neg (by tauto)]

/-- Witness for C10: two 1×1×1 images with identical bytes but opposite
layout tags compare equal; images differing in width compare unequal. -/
theorem C10_image_equality_ignores_layout_witness :
    Image.eqOp ⟨1, 1, 1, false, fun _ => 5⟩ ⟨1, 1, 1, true, fun _ => 5⟩ = true ∧
    Image.eqOp ⟨1, 1, 1, false, fun _ => 5⟩ ⟨2, 1, 1, false, fun _ => 5⟩ = false := by
  constructor
  · exact C10_image_equality_ignores_layout.1 ⟨1, 1, 1, false, fun _ => 5⟩
      ⟨1, 1, 1, true, fun _ => 5⟩ rfl rfl rfl (fun i _ => rfl)
  · exact C10_image_equality_ignores_layout.2.2 ⟨1, 1, 1, false, fun _ => 5⟩
      ⟨2, 1, 1, false, fun _ => 5⟩ (Or.inl (by norm_num))

/-! ### Custom kernel normalization (frame effect on the caller's array) -/

/-- C9: with `normalize = true`, `custom_kernel` rescales the
caller-supplied weight array in place — after the call every entry is
the original entry divided by the sum of all entries — and the
constructed kernel reads back exactly those rescaled values; with
`normalize = false` the caller's array is left unchanged.  The
hypothesis `sum ≠ 0` restricts to the domain on which exact rational
division models the source's float division (`kernel.cpp` has no
zero-sum guard). -/
theorem C9_custom_kernel_normalize_frame (size : ℤ) (data : List ℚ)
    (_hsum : data.sum ≠ 0) :
    ((Kernel.custom_kernel size data true).1
        = data.map (fun v => v / data.sum)) ∧
    (∀ k, (Kernel.custom_kernel size data true).2 = .ok k →
      ∀ i, k.data i = (data.map (fun v => v / data.sum)).getD i 0) ∧
    ((Kernel.custom_kernel size data false).1 = data) ∧
    (∀ k, (Kernel.custom_kernel size data false).2 = .ok k →
      ∀ i, k.data i = data.getD i 0) := by
  refine ⟨rfl, ?_, rfl, ?_⟩
  · intro k hk i
    have hkk := ((Kernel.construct_eq_ok_iff size size _ k).mp hk).2.2.2
    rw [hkk, if_pos rfl]
  · intro k hk i
    have hkk := ((Kernel.construct_eq_ok_iff size size _ k).mp hk).2.2.2
    rw [hkk, if_neg Bool.false_ne_true]

/-- Witness for C9 at the 1×1 kernel with weight list `[4]`: the caller's
array becomes `[1]` and the kernel reads back 1; without normalization
the array stays `[4]`. -/
theorem C9_custom_kernel_normalize_frame_witness :
    (Kernel.custom_kernel 1 [(4 : ℚ)] true).1 = [(1 : ℚ)] ∧
    (Kernel.custom_kernel 1 [(4 : ℚ)] false).1 = [(4 : ℚ)] := by
  have h := C9_custom_kernel_normalize_frame 1 [(4 : ℚ)] (by norm_num)
  refine ⟨?_, h.2.2.1⟩
  rw [h.1]
  norm_num

/-- Witness for C6 at a concrete 2×2 two-channel interleaved raster. -/
theorem C6_convert_layout_round_trip_witness :
    ((⟨2, 2, 2, false, fun i => i + 3⟩ : Image).AoS_to_SoA).SoA_to_AoS.eqOp
      ⟨2, 2, 2, false, fun i => i + 3⟩ = true :=
  C6_convert_layout_round_trip ⟨2, 2, 2, false, fun i => i + 3⟩

/-! ### Padding -/

@[simp] lemma Image.padding_width (img : Image) (pw ph : ℕ) (pt : PaddingType) :
    (img.padding pw ph pt).width = img.width + pw * 2 := rfl

@[simp] lemma Image.padding_height (img : Image) (pw ph : ℕ) (pt : PaddingType) :
    (img.padding pw ph pt).height = img.height + ph * 2 := rfl

@[simp] lemma Image.padding_channels (img : Image) (pw ph : ℕ) (pt : PaddingType) :
    (img.padding pw ph pt).channels = img.channels := rfl

@[simp] lemma Image.padding_is_SoA (img : Image) (pw ph : ℕ) (pt : PaddingType) :
    (img.padding pw ph pt).is_SoA = img.is_SoA := rfl

lemma Image.getD_padding (img : Image) {pw ph : ℕ} {pt : PaddingType}
    {x y ch : ℕ} (hx : x < img.width + pw * 2) (hy : y < img.height + ph * 2)
    (hch : ch < img.channels) :
    (img.padding pw ph pt).getD x y ch = paddedPixel img pw ph pt x y ch :=
  Image.getD_ofPixels hx hy hch

lemma Int.tmod_small {v b : ℤ} (h1 : -b < v) (h2 : v < b) : v.tmod b = v := by
  rw [Int.tmod_def]
  rcases le_or_lt 0 v with hv | hv
  · rw [Int.tdiv_eq_zero_of_lt hv h2]
    ring
  · have hneg : v.tdiv b = -((-v).tdiv b) := by rw [← Int.neg_tdiv, neg_neg]
    rw [hneg, Int.tdiv_eq_zero_of_lt (by omega) (by omega)]
    ring

lemma mirrorFold_eq (v : ℤ) (dim : ℕ) :
    mirrorFold v dim
      = min (|v.tmod (2 * (dim : ℤ))|)
          (2 * (dim : ℤ) - 1 - (|v.tmod (2 * (dim : ℤ))| + 1)) := rfl

lemma mirrorFold_mem {v : ℤ} {dim : ℕ} (hdim : 0 < dim)
    (h1 : -(dim : ℤ) < v) (h2 : v ≤ 2 * (dim : ℤ) - 2) :
    0 ≤ mirrorFold v dim ∧ mirrorFold v dim < dim := by
  have hdimz : (0 : ℤ) < (dim : ℤ) := by exact_mod_cast hdim
  have htm : v.tmod (2 * (dim : ℤ)) = v := Int.tmod_small (by omega) (by omega)
  rw [mirrorFold_eq, htm]
  rcases abs_cases v with ⟨hv, _⟩ | ⟨hv, _⟩ <;> rw [hv] <;>
    rcases min_cases v (2 * (dim : ℤ) - 1 - (v + 1)) with ⟨hm, _⟩ | ⟨hm, _⟩ <;>
    omega

/-- When the source coordinate is in range, `mirrorFold` is the
identity (the fold touches only out-of-range coordinates). -/
lemma mirrorFold_of_mem {v : ℤ} {dim : ℕ} (h0 : 0 ≤ v) (h : v < (dim : ℤ)) :
    mirrorFold v dim = v := by
  have htm : v.tmod (2 * (dim : ℤ)) = v := Int.tmod_small (by omega) (by omega)
  rw [mirrorFold_eq, htm]
  rcases abs_cases v with ⟨hv, _⟩ | ⟨hv, _⟩ <;> rw [hv] <;>
    rcases min_cases v (2 * (dim : ℤ) - 1 - (v + 1)) with ⟨hm, _⟩ | ⟨hm, _⟩ <;>
    omega

/-- Modelled from the spec wording of the MIRROR fold (claim C3):
`m = |v mod 2·dim|; m = min(m, 2·dim − 1 − m)` — to be compared with the
source's `mirrorFold`. -/
def specMirrorFold (v : ℤ) (dim : ℕ) : ℤ :=
  let m : ℤ := |v.tmod (2 * (dim : ℤ))|
  min m (2 * (dim : ℤ) - 1 - m)

/-- C5: ZERO padding by `(p, p)` produces a `(W+2p)×(H+2p)` raster with
the same channel count and layout, an all-zero border ring of thickness
`p` in every channel, and an interior equal to the original raster
pixel-for-pixel. -/
theorem C5_zero_padding_shape (img : Image) (p : ℕ) :
    (img.padding p p PaddingType.ZERO).width = img.width + 2 * p ∧
    (img.padding p p PaddingType.ZERO).height = img.height + 2 * p ∧
    (img.padding p p PaddingType.ZERO).channels = img.channels ∧
    (img.padding p p PaddingType.ZERO).is_SoA = img.is_SoA ∧
    (∀ x y ch : ℕ, x < img.width + 2 * p → y < img.height + 2 * p →
      ch < img.channels →
      ¬(p ≤ x ∧ x < p + img.width ∧ p ≤ y ∧ y < p + img.height) →
      (img.padding p p PaddingType.ZERO).getD x y ch = 0) ∧
    (∀ col row ch : ℕ, col < img.width → row < img.height → ch < img.channels →
      (img.padding p p PaddingType.ZERO).getD (((col + p : ℕ) : ℤ))
          (((row + p : ℕ) : ℤ)) ch
        = img.getD col row ch) := by
  refine ⟨by simp [Nat.mul_comm], by simp [Nat.mul_comm], rfl, rfl, ?_, ?_⟩
  · intro x y ch hx hy hch hout
    rw [Image.getD_padding img (by omega) (by omega) hch]
    simp only [paddedPixel]
    rw [if_neg (by omega)]
  · intro col row ch hc hr hch
    rw [Image.getD_padding img (by omega) (by omega) hch]
    simp only [paddedPixel]
    rw [if_pos (by constructor <;> [omega; constructor] <;> [omega; constructor] <;> omega)]
    congr 1 <;> omega

/-- Witness for C5 on a concrete 2×2 single-channel raster padded by 1:
the border pixel (0,0) of the padded raster is 0 and the interior pixel
(1,1) equals original pixel (0,0). -/
theorem C5_zero_padding_shape_witness :
    (Image.padding ⟨2, 2, 1, false, fun i => i + 9⟩ 1 1 PaddingType.ZERO).getD 0 0 0 = 0 ∧
    (Image.padding ⟨2, 2, 1, false, fun i => i + 9⟩ 1 1 PaddingType.ZERO).getD 1 1 0
      = (⟨2, 2, 1, false, fun i => i + 9⟩ : Image).getD 0 0 0 := by
  constructor
  · exact (C5_zero_padding_shape ⟨2, 2, 1, false, fun i => i + 9⟩ 1).2.2.2.2.1
      0 0 0 (by norm_num) (by norm_num) (by norm_num) (by norm_num)
  · exact (C5_zero_padding_shape ⟨2, 2, 1, false, fun i => i + 9⟩ 1).2.2.2.2.2
      0 0 0 (by norm_num) (by norm_num) (by norm_num)

/-- C8: with positive dimensions and `pad_w < width`, `pad_h < height`,
every coordinate folded by the MIRROR branch lies inside
`[0, width) × [0, height)`, so the bounds-checked accessor never reaches
its error branch during mirror padding. -/
theorem C8_mirror_fold_coordinates_in_range (img : Image) (pw ph x y : ℕ)
    (ch : ℤ) (hw : 0 < img.width) (hh : 0 < img.height)
    (hpw : pw < img.width) (hph : ph < img.height)
    (hx : x < img.width + pw * 2) (hy : y < img.height + ph * 2)
    (hch0 : 0 ≤ ch) (hch : ch < img.channels) :
    0 ≤ mirrorFold ((x : ℤ) - pw) img.width ∧
    mirrorFold ((x : ℤ) - pw) img.width < img.width ∧
    0 ≤ mirrorFold ((y : ℤ) - ph) img.height ∧
    mirrorFold ((y : ℤ) - ph) img.height < img.height ∧
    (img.get (mirrorFold ((x : ℤ) - pw) img.width)
      (mirrorFold ((y : ℤ) - ph) img.height) ch).isSome = true := by
  obtain ⟨hcl, hcu⟩ := mirrorFold_mem (v := (x : ℤ) - pw) hw (by omega) (by omega)
  obtain ⟨hrl, hru⟩ := mirrorFold_mem (v := (y : ℤ) - ph) hh (by omega) (by omega)
  refine ⟨hcl, hcu, hrl, hru, ?_⟩
  rw [Image.get, if_pos ⟨hcl, hcu, hrl, hru, hch0, hch⟩]
  rfl

/-- Witness for C8 on a 4×4 single-channel raster with pad 1 at padded
coordinate (0,0): the folded access is inside bounds. -/
theorem C8_mirror_fold_coordinates_in_range_witness :
    ((⟨4, 4, 1, false, fun i => i⟩ : Image).get
      (mirrorFold (((0 : ℕ) : ℤ) - (1 : ℕ)) 4)
      (mirrorFold (((0 : ℕ) : ℤ) - (1 : ℕ)) 4) 0).isSome = true :=
  (C8_mirror_fold_coordinates_in_range ⟨4, 4, 1, false, fun i => i⟩ 1 1 0 0 0
    (by norm_num) (by norm_num) (by norm_num) (by norm_num) (by norm_num)
    (by norm_num) (by norm_num) (by norm_num)).2.2.2.2

/-- C3 (counterexample): on the 4×4 single-channel raster with bytes
`0..15` padded by 1 under MIRROR, the padded border pixel (0,0) is 5 —
original pixel (1,1) — not original pixel (0,0) (which is 0); moreover
the source's fold `min(m, 2·dim−2−m)` and the spec's written fold
`min(m, 2·dim−1−m)` disagree at `v = 4, dim = 4` (2 versus 3), where the
code copies byte 2 and the spec formula would copy byte 3. -/
theorem C3_mirror_padding_counterexample :
    (Image.padding ⟨4, 4, 1, false, fun i => i⟩ 1 1 PaddingType.MIRROR).getD 0 0 0 = 5 ∧
    (⟨4, 4, 1, false, fun i => i⟩ : Image).getD 0 0 0 = 0 ∧
    mirrorFold 4 4 = 2 ∧ specMirrorFold 4 4 = 3 ∧
    (Image.padding ⟨4, 4, 1, false, fun i => i⟩ 1 1 PaddingType.MIRROR).getD 5 1 0 = 2 ∧
    (⟨4, 4, 1, false, fun i => i⟩ : Image).getD (specMirrorFold 4 4) 0 0 = 3 := by
  decide

/-- C3 (amended): under MIRROR every out-of-range destination coordinate
is folded by `m = |v % 2·dim|` (C++ truncated `%`) followed by
`min(m, (2·dim − 1) − (m + 1))`, independently for columns against the
width and rows against the height, and the pixel at the folded
coordinates is copied; on a 4×4 single-channel raster padded by 1, the
padded pixel (0,0) equals original pixel (1,1) (reflection of index −1
folds to 1: mirror without border duplication). -/
theorem C3_mirror_padding_amended :
    (∀ (img : Image) (pw ph x y ch : ℕ),
      x < img.width + pw * 2 → y < img.height + ph * 2 → ch < img.channels →
      ¬(pw ≤ x ∧ x < pw + img.width ∧ ph ≤ y ∧ y < ph + img.height) →
      (img.padding pw ph PaddingType.MIRROR).getD x y ch
        = img.getD (mirrorFold ((x : ℤ) - pw) img.width)
            (mirrorFold ((y : ℤ) - ph) img.height) ch) ∧
    (Image.padding ⟨4, 4, 1, false, fun i => i⟩ 1 1 PaddingType.MIRROR).getD 0 0 0
      = (⟨4, 4, 1, false, fun i => i⟩ : Image).getD 1 1 0 := by
  constructor
  · intro img pw ph x y ch hx hy hch hout
    rw [Image.getD_padding img hx hy hch]
    simp only [paddedPixel]
    rw [if_neg (by omega)]
  · decide

/-- Witness for C3's amended statement at the padded coordinate (5,1) of
the same raster: the fold sends column 4 to 2. -/
theorem C3_mirror_padding_amended_witness :
    (Image.padding ⟨4, 4, 1, false, fun i => i⟩ 1 1 PaddingType.MIRROR).getD 5 1 0
      = (⟨4, 4, 1, false, fun i => i⟩ : Image).getD
          (mirrorFold (((5 : ℕ) : ℤ) - (1 : ℕ)) 4)
          (mirrorFold (((1 : ℕ) : ℤ) - (1 : ℕ)) 4) 0 :=
  C3_mirror_padding_amended.1 ⟨4, 4, 1, false, fun i => i⟩ 1 1 5 1 0
    (by norm_num) (by norm_num) (by norm_num) (by norm_num)

/-! ### Convolution -/

lemma Image.data_ofPixels_eq (w h c : ℕ) (soa : Bool) (f : ℕ → ℕ → ℕ → ℕ)
    {i : ℕ} (hi : i < w * h * c) :
    (Image.ofPixels w h c soa f).data i
      = f (Image.decodeIdx w h c soa i).1 (Image.decodeIdx w h c soa i).2.1
          (Image.decodeIdx w h c soa i).2.2 := by
  rw [Image.ofPixels_data, if_pos hi]

lemma clampStore_byte {b : ℕ} (hb : b ≤ 255) : clampStore ((b : ℕ) : ℚ) = b := by
  unfold clampStore
  rw [max_eq_right (by positivity), min_eq_left (by exact_mod_cast hb),
    Int.floor_natCast, Int.toNat_natCast]

/-- The padding of width 0 and height 0 copies every pixel. -/
lemma Image.getD_padding_zero (img : Image) (pt : PaddingType) {x y ch : ℕ}
    (hx : x < img.width) (hy : y < img.height) (hch : ch < img.channels) :
    (img.padding 0 0 pt).getD x y ch = img.getD x y ch := by
  rw [Image.getD_padding img (by omega) (by omega) hch]
  simp only [paddedPixel]
  rw [if_pos (by constructor <;> [omega; constructor] <;> [omega; constructor] <;> omega)]
  norm_num

/-- C7: convolving with the 1×1 kernel of weight 1 returns a raster equal
to the input, for every 8-bit image and every padding policy. -/
theorem C7_unit_kernel_identity (img : Image) (pt : PaddingType)
    (hv : img.valid) :
    (Sequential.convolve img ⟨1, 1, fun _ => 1⟩ pt).eqOp img = true := by
  rw [Image.eqOp_eq_true_iff]
  refine ⟨rfl, rfl, rfl, ?_⟩
  intro i hi
  have hi' : i < img.size := hi
  obtain ⟨h1, h2, h3, h4⟩ := img.decodeIdx_lt_and_encode hi'
  have hlhs : (Sequential.convolve img ⟨1, 1, fun _ => 1⟩ pt).data i
      = clampStore (seqPixel (img.padding 0 0 pt) ⟨1, 1, fun _ => 1⟩ 0 0
          (Image.decodeIdx img.width img.height img.channels img.is_SoA i).1
          (Image.decodeIdx img.width img.height img.channels img.is_SoA i).2.1
          (Image.decodeIdx img.width img.height img.channels img.is_SoA i).2.2) := by
    show (Image.ofPixels img.width img.height img.channels img.is_SoA
        (fun x y ch => clampStore
          (seqPixel (img.padding 0 0 pt) ⟨1, 1, fun _ => 1⟩ 0 0 x y ch))).data i = _
    exact Image.data_ofPixels_eq img.width img.height img.channels img.is_SoA _ hi'
  rw [hlhs]
  have hseq : seqPixel (img.padding 0 0 pt) ⟨1, 1, fun _ => 1⟩ 0 0
      (Image.decodeIdx img.width img.height img.channels img.is_SoA i).1
      (Image.decodeIdx img.width img.height img.channels img.is_SoA i).2.1
      (Image.decodeIdx img.width img.height img.channels img.is_SoA i).2.2
      = ((img.data i : ℕ) : ℚ) := by
    unfold seqPixel
    rw [Finset.sum_range_one, Finset.sum_range_one]
    have hcoord : ∀ a : ℕ, ((a : ℤ) + (0 : ℕ) - ((1 / 2 : ℕ) : ℤ) + (0 : ℕ)) = (a : ℤ) := by
      intro a
      norm_num
    rw [hcoord, hcoord]
    rw [Image.getD_padding_zero img pt h1 h2 h3,
      Image.getD_eq_data img h1 h2 h3, h4]
    simp [KernelQ.get]
  rw [hseq, clampStore_byte (hv i hi')]

/-- Witness for C7 at a concrete valid 2×2 single-channel image under
MIRROR padding. -/
theorem C7_unit_kernel_identity_witness :
    (Sequential.convolve ⟨2, 2, 1, false, fun i => i + 9⟩ ⟨1, 1, fun _ => 1⟩
      PaddingType.MIRROR).eqOp ⟨2, 2, 1, false, fun i => i + 9⟩ = true := by
  refine C7_unit_kernel_identity ⟨2, 2, 1, false, fun i => i + 9⟩
    PaddingType.MIRROR ?_
  intro i hi
  have hi4 : i < 4 := by simpa [Image.size] using hi
  show i + 9 ≤ 255
  omega

/-- Modelled from the spec wording of the per-element store (claim C2):
`output(x,y,c) = clamp(round(value), 0, 255)` — to be compared with the
source's `clampStore`. -/
def specRoundStore (v : ℚ) : ℕ := (min (max 0 (round v)) 255).toNat

/-- C2 (counterexample): on a 1×1 image with byte 3 and the 1×1 kernel of
weight 1/4, the accumulated value is 3/4; the spec's
`clamp(round(value),0,255)` stores 1, but the engine stores 0 (the cast
to `uint8_t` truncates; it does not round). -/
theorem C2_round_and_clamp_counterexample :
    seqPixel (Image.padding ⟨1, 1, 1, false, fun _ => 3⟩ 0 0 PaddingType.ZERO)
        ⟨1, 1, fun _ => (1 : ℚ)/4⟩ 0 0 0 0 0 = 3/4 ∧
    specRoundStore (3/4) = 1 ∧
    (Sequential.convolve ⟨1, 1, 1, false, fun _ => 3⟩ ⟨1, 1, fun _ => (1 : ℚ)/4⟩
        PaddingType.ZERO).getD 0 0 0 = 0 := by
  have hpad : ∀ a b c : ℤ, a = 0 → b = 0 → c = 0 →
      (Image.padding ⟨1, 1, 1, false, fun _ => 3⟩ 0 0 PaddingType.ZERO).getD a b c
        = 3 := by
    rintro a b c rfl rfl rfl
    decide
  have hseq : seqPixel (Image.padding ⟨1, 1, 1, false, fun _ => 3⟩ 0 0
      PaddingType.ZERO) ⟨1, 1, fun _ => (1 : ℚ)/4⟩ 0 0 0 0 0 = 3/4 := by
    unfold seqPixel
    rw [Finset.sum_range_one, Finset.sum_range_one,
      hpad _ _ _ (by norm_num) (by norm_num) (by norm_num)]
    show (3 : ℚ) * ((fun _ => (1 : ℚ)/4) (0 * 1 + 0)) = 3/4
    norm_num
  refine ⟨hseq, ?_, ?_⟩
  · rw [specRoundStore, round_eq]
    norm_num
  · have hget : (Sequential.convolve ⟨1, 1, 1, false, fun _ => 3⟩
        ⟨1, 1, fun _ => (1 : ℚ)/4⟩ PaddingType.ZERO).getD 0 0 0
        = clampStore (seqPixel (Image.padding ⟨1, 1, 1, false, fun _ => 3⟩ 0 0
            PaddingType.ZERO) ⟨1, 1, fun _ => (1 : ℚ)/4⟩ 0 0 0 0 0) := by
      show (Image.ofPixels 1 1 1 false
          (fun x y ch => clampStore (seqPixel
            (Image.padding ⟨1, 1, 1, false, fun _ => 3⟩ 0 0 PaddingType.ZERO)
            ⟨1, 1, fun _ => (1 : ℚ)/4⟩ 0 0 x y ch))).getD 0 0 0 = _
      exact Image.getD_ofPixels (by norm_num) (by norm_num) (by norm_num)
    rw [hget, hseq, clampStore]
    norm_num

/-- C2 (amended): for every in-range output coordinate the engine stores
`clamp(value, 0, 255)` truncated toward zero — no rounding — where
`value` is the kernel-window weighted sum accumulated over the wider
rational (float) type; clamping saturates: a raw value of 300 stores
255 and a raw value of −40 stores 0. -/
theorem C2_stored_output_amended :
    (∀ (img : Image) (ker : KernelQ) (pt : PaddingType) (x y ch : ℕ),
      x < img.width → y < img.height → ch < img.channels →
      (Sequential.convolve img ker pt).get x y ch
        = some (clampStore (seqPixel (img.padding (ker.width / 2) (ker.height / 2) pt)
            ker (ker.width / 2) (ker.height / 2) x y ch))) ∧
    clampStore 300 = 255 ∧ clampStore (-40) = 0 := by
  refine ⟨?_, by rw [clampStore]; norm_num; decide, by rw [clampStore]; norm_num⟩
  intro img ker pt x y ch hx hy hch
  show (Image.ofPixels img.width img.height img.channels img.is_SoA
      (fun x y ch => clampStore
        (seqPixel (img.padding (ker.width / 2) (ker.height / 2) pt) ker
          (ker.width / 2) (ker.height / 2) x y ch))).get x y ch = _
  exact Image.get_ofPixels hx hy hch

/-- Witness for C2's amended statement: the stored byte of the
counterexample configuration is exactly the truncated clamped
accumulator. -/
theorem C2_stored_output_amended_witness :
    (Sequential.convolve ⟨1, 1, 1, false, fun _ => 3⟩ ⟨1, 1, fun _ => (1 : ℚ)/4⟩
        PaddingType.ZERO).get 0 0 0
      = some (clampStore (seqPixel
          (Image.padding ⟨1, 1, 1, false, fun _ => 3⟩ 0 0 PaddingType.ZERO)
          ⟨1, 1, fun _ => (1 : ℚ)/4⟩ 0 0 0 0 0)) :=
  C2_stored_output_amended.1 ⟨1, 1, 1, false, fun _ => 3⟩
    ⟨1, 1, fun _ => (1 : ℚ)/4⟩ PaddingType.ZERO 0 0 0
    (by norm_num) (by norm_num) (by norm_num)

/-! ### The shared-memory staging gap (C1) -/

lemma zeroImage_getD (w h c : ℕ) (soa : Bool) (col row ch : ℤ) :
    (⟨w, h, c, soa, fun _ => 0⟩ : Image).getD col row ch = 0 := by
  rw [Image.getD, Image.get]
  split <;> rfl

lemma paddedPixel_zeroImage (w h c : ℕ) (soa : Bool) (pw ph : ℕ)
    (pt : PaddingType) (x y ch : ℕ) :
    paddedPixel ⟨w, h, c, soa, fun _ => 0⟩ pw ph pt x y ch = 0 := by
  simp only [paddedPixel]
  split <;> [skip; split] <;>
    first
    | rfl
    | exact zeroImage_getD w h c soa _ _ _

lemma padding_zeroImage_data (w h c : ℕ) (soa : Bool) (pw ph : ℕ)
    (pt : PaddingType) (i : ℕ) :
    (Image.padding ⟨w, h, c, soa, fun _ => 0⟩ pw ph pt).data i = 0 := by
  show (Image.ofPixels (w + pw * 2) (h + ph * 2) c soa
    (paddedPixel ⟨w, h, c, soa, fun _ => 0⟩ pw ph pt)).data i = 0
  rw [Image.ofPixels_data]
  split
  · exact paddedPixel_zeroImage w h c soa pw ph pt _ _ _
  · rfl

lemma padding_zeroImage_getD (w h c : ℕ) (soa : Bool) (pw ph : ℕ)
    (pt : PaddingType) (col row ch : ℤ) :
    (Image.padding ⟨w, h, c, soa, fun _ => 0⟩ pw ph pt).getD col row ch = 0 := by
  rw [Image.getD, Image.get]
  split
  · exact padding_zeroImage_data w h c soa pw ph pt _
  · rfl

lemma padding_zeroImage_read (w h c : ℕ) (soa : Bool) (pw ph : ℕ)
    (pt : PaddingType) (col row ch : ℤ) :
    (Image.padding ⟨w, h, c, soa, fun _ => 0⟩ pw ph pt).read col row ch = 0 := by
  rw [Image.read]
  exact padding_zeroImage_data w h c soa pw ph pt _

lemma clampStore_zero : clampStore 0 = 0 := by
  rw [clampStore]
  norm_num

/-- C1 (divergence at the failing input): on the all-zero 1×16
single-channel image with the 9×9 kernel whose only weight 1.0 sits at
(kx,ky) = (0,8), under ZERO padding and `TILE_WIDTH = 16`, the
shared-memory strategy consumes shared-memory cell
`(15+8)·24 + 0 = 552`, which lies beyond the `2·16² = 512` cells the
staging loop ever writes — so its output pixel (0,15) is whatever byte
the launch left there (255 here, via `junk`), while the sequential,
global-memory, and constant-memory strategies all store 0.  The
bulk-pipelined (`pinned`) strategy launches the same shared-memory
kernel and inherits the divergence. -/
theorem C1_shared_staging_divergence :
    (Parallel.convolve_shared ⟨1, 16, 1, false, fun _ => 0⟩
        ⟨9, 9, fun i => if i = 72 then (1 : ℚ) else 0⟩ PaddingType.ZERO
        (fun _ => 255)).getD 0 15 0 = 255 ∧
    (Parallel.convolve_pinned ⟨1, 16, 1, false, fun _ => 0⟩
        ⟨9, 9, fun i => if i = 72 then (1 : ℚ) else 0⟩ PaddingType.ZERO
        (fun _ => 255)).getD 0 15 0 = 255 ∧
    (Sequential.convolve ⟨1, 16, 1, false, fun _ => 0⟩
        ⟨9, 9, fun i => if i = 72 then (1 : ℚ) else 0⟩
        PaddingType.ZERO).getD 0 15 0 = 0 ∧
    (Parallel.convolve_global ⟨1, 16, 1, false, fun _ => 0⟩
        ⟨9, 9, fun i => if i = 72 then (1 : ℚ) else 0⟩
        PaddingType.ZERO).getD 0 15 0 = 0 ∧
    (Parallel.convolve_constant ⟨1, 16, 1, false, fun _ => 0⟩
        ⟨9, 9, fun i => if i = 72 then (1 : ℚ) else 0⟩
        PaddingType.ZERO).getD 0 15 0 = 0 := by
  have hk0 : ∀ i : ℕ, i ≠ 72 →
      cKernelTable ⟨9, 9, fun i => if i = 72 then (1 : ℚ) else 0⟩ i = 0 := by
    intro i hne
    simp only [cKernelTable]
    split
    all_goals first
    | exact if_neg hne
    | rfl
  have hk72 : cKernelTable ⟨9, 9, fun i => if i = 72 then (1 : ℚ) else 0⟩ 72 = 1 := by
    simp only [cKernelTable]
    norm_num
  have hsh : (Parallel.convolve_shared ⟨1, 16, 1, false, fun _ => 0⟩
      ⟨9, 9, fun i => if i = 72 then (1 : ℚ) else 0⟩ PaddingType.ZERO
      (fun _ => 255)).getD 0 15 0 = 255 := by
    have hget : (Parallel.convolve_shared ⟨1, 16, 1, false, fun _ => 0⟩
        ⟨9, 9, fun i => if i = 72 then (1 : ℚ) else 0⟩ PaddingType.ZERO
        (fun _ => 255)).getD 0 15 0
        = clampStore (sharedPixel
            (Image.padding ⟨1, 16, 1, false, fun _ => 0⟩ 4 4 PaddingType.ZERO)
            ⟨9, 9, fun i => if i = 72 then (1 : ℚ) else 0⟩ 4 4
            (fun _ => 255) 0 15 0) := by
      show (Image.ofPixels 1 16 1 false
          (fun x y ch => clampStore (sharedPixel
            (Image.padding ⟨1, 16, 1, false, fun _ => 0⟩ 4 4 PaddingType.ZERO)
            ⟨9, 9, fun i => if i = 72 then (1 : ℚ) else 0⟩ 4 4
            (fun _ => 255) x y ch))).getD 0 15 0 = _
      exact Image.getD_ofPixels (by norm_num) (by norm_num) (by norm_num)
    rw [hget]
    have hpix : sharedPixel
        (Image.padding ⟨1, 16, 1, false, fun _ => 0⟩ 4 4 PaddingType.ZERO)
        ⟨9, 9, fun i => if i = 72 then (1 : ℚ) else 0⟩ 4 4
        (fun _ => 255) 0 15 0 = 255 := by
      show (∑ ky ∈ Finset.range 9, ∑ kx ∈ Finset.range 9,
          ((sharedMem
              (Image.padding ⟨1, 16, 1, false, fun _ => 0⟩ 4 4 PaddingType.ZERO)
              9 9 4 4 (0 / TILE_WIDTH) (15 / TILE_WIDTH) 0 (fun _ => 255)
              ((15 % TILE_WIDTH + ky) * sWidth 9 + (0 % TILE_WIDTH + kx)) : ℕ) : ℚ)
            * cKernelTable ⟨9, 9, fun i => if i = 72 then (1 : ℚ) else 0⟩
                (ky * 9 + kx)) = 255
      rw [Finset.sum_eq_single 8 ?houter ?hmem8]
      case houter =>
        intro b hb hne
        refine Finset.sum_eq_zero ?_
        intro kx hkx
        have hb9 : b < 9 := Finset.mem_range.mp hb
        have hkx9 : kx < 9 := Finset.mem_range.mp hkx
        rw [hk0 (b * 9 + kx) (by omega), mul_zero]
      case hmem8 =>
        intro habs
        exact absurd (Finset.mem_range.mpr (by norm_num)) habs
      rw [Finset.sum_eq_single 0 ?hinner ?hmem0]
      case hinner =>
        intro kx hkx hne
        rw [hk0 (8 * 9 + kx) (by omega), mul_zero]
      case hmem0 =>
        intro habs
        exact absurd (Finset.mem_range.mpr (by norm_num)) habs
      have hcell : sharedMem
          (Image.padding ⟨1, 16, 1, false, fun _ => 0⟩ 4 4 PaddingType.ZERO)
          9 9 4 4 (0 / TILE_WIDTH) (15 / TILE_WIDTH) 0 (fun _ => 255)
          ((15 % TILE_WIDTH + 8) * sWidth 9 + (0 % TILE_WIDTH + 0)) = 255 := by
        decide
      rw [hcell]
      show (255 : ℚ) * cKernelTable ⟨9, 9, fun i => if i = 72 then (1 : ℚ) else 0⟩ 72 = 255
      rw [hk72, mul_one]
    rw [hpix, clampStore]
    norm_num
    decide
  have hseq : (Sequential.convolve ⟨1, 16, 1, false, fun _ => 0⟩
      ⟨9, 9, fun i => if i = 72 then (1 : ℚ) else 0⟩
      PaddingType.ZERO).getD 0 15 0 = 0 := by
    have hget : (Sequential.convolve ⟨1, 16, 1, false, fun _ => 0⟩
        ⟨9, 9, fun i => if i = 72 then (1 : ℚ) else 0⟩
        PaddingType.ZERO).getD 0 15 0
        = clampStore (seqPixel
            (Image.padding ⟨1, 16, 1, false, fun _ => 0⟩ 4 4 PaddingType.ZERO)
            ⟨9, 9, fun i => if i = 72 then (1 : ℚ) else 0⟩ 4 4 0 15 0) := by
      show (Image.ofPixels 1 16 1 false
          (fun x y ch => clampStore (seqPixel
            (Image.padding ⟨1, 16, 1, false, fun _ => 0⟩ 4 4 PaddingType.ZERO)
            ⟨9, 9, fun i => if i = 72 then (1 : ℚ) else 0⟩ 4 4 x y ch))).getD 0 15 0 = _
      exact Image.getD_ofPixels (by norm_num) (by norm_num) (by norm_num)
    rw [hget]
    have hpix : seqPixel
        (Image.padding ⟨1, 16, 1, false, fun _ => 0⟩ 4 4 PaddingType.ZERO)
        ⟨9, 9, fun i => if i = 72 then (1 : ℚ) else 0⟩ 4 4 0 15 0 = 0 := by
      unfold seqPixel
      refine Finset.sum_eq_zero ?_
      intro ky _
      refine Finset.sum_eq_zero ?_
      intro kx _
      rw [padding_zeroImage_getD]
      norm_num
    rw [hpix, clampStore_zero]
  have hglob : (Parallel.convolve_global ⟨1, 16, 1, false, fun _ => 0⟩
      ⟨9, 9, fun i => if i = 72 then (1 : ℚ) else 0⟩
      PaddingType.ZERO).getD 0 15 0 = 0 := by
    have hget : (Parallel.convolve_global ⟨1, 16, 1, false, fun _ => 0⟩
        ⟨9, 9, fun i => if i = 72 then (1 : ℚ) else 0⟩
        PaddingType.ZERO).getD 0 15 0
        = clampStore (globalPixel
            (Image.padding ⟨1, 16, 1, false, fun _ => 0⟩ 4 4 PaddingType.ZERO)
            (fun i => if i = 72 then (1 : ℚ) else 0) 9 9 4 4 0 15 0) := by
      show (Image.ofPixels 1 16 1 false
          (fun x y ch => clampStore (globalPixel
            (Image.padding ⟨1, 16, 1, false, fun _ => 0⟩ 4 4 PaddingType.ZERO)
            (fun i => if i = 72 then (1 : ℚ) else 0) 9 9 4 4 x y ch))).getD 0 15 0 = _
      exact Image.getD_ofPixels (by norm_num) (by norm_num) (by norm_num)
    rw [hget]
    have hpix : globalPixel
        (Image.padding ⟨1, 16, 1, false, fun _ => 0⟩ 4 4 PaddingType.ZERO)
        (fun i => if i = 72 then (1 : ℚ) else 0) 9 9 4 4 0 15 0 = 0 := by
      unfold globalPixel
      refine Finset.sum_eq_zero ?_
      intro ky _
      refine Finset.sum_eq_zero ?_
      intro kx _
      rw [padding_zeroImage_read]
      norm_num
    rw [hpix, clampStore_zero]
  have hconst : (Parallel.convolve_constant ⟨1, 16, 1, false, fun _ => 0⟩
      ⟨9, 9, fun i => if i = 72 then (1 : ℚ) else 0⟩
      PaddingType.ZERO).getD 0 15 0 = 0 := by
    have hget : (Parallel.convolve_constant ⟨1, 16, 1, false, fun _ => 0⟩
        ⟨9, 9, fun i => if i = 72 then (1 : ℚ) else 0⟩
        PaddingType.ZERO).getD 0 15 0
        = clampStore (globalPixel
            (Image.padding ⟨1, 16, 1, false, fun _ => 0⟩ 4 4 PaddingType.ZERO)
            (cKernelTable ⟨9, 9, fun i => if i = 72 then (1 : ℚ) else 0⟩)
            9 9 4 4 0 15 0) := by
      show (Image.ofPixels 1 16 1 false
          (fun x y ch => clampStore (globalPixel
            (Image.padding ⟨1, 16, 1, false, fun _ => 0⟩ 4 4 PaddingType.ZERO)
            (cKernelTable ⟨9, 9, fun i => if i = 72 then (1 : ℚ) else 0⟩)
            9 9 4 4 x y ch))).getD 0 15 0 = _
      exact Image.getD_ofPixels (by norm_num) (by norm_num) (by norm_num)
    rw [hget]
    have hpix : globalPixel
        (Image.padding ⟨1, 16, 1, false, fun _ => 0⟩ 4 4 PaddingType.ZERO)
        (cKernelTable ⟨9, 9, fun i => if i = 72 then (1 : ℚ) else 0⟩)
        9 9 4 4 0 15 0 = 0 := by
      unfold globalPixel
      refine Finset.sum_eq_zero ?_
      intro ky _
      refine Finset.sum_eq_zero ?_
      intro kx _
      rw [padding_zeroImage_read]
      norm_num
    rw [hpix, clampStore_zero]
  exact ⟨hsh, hsh, hseq, hglob, hconst⟩

/-! ### Strategy equivalence when the tile staging covers the halo -/

lemma Image.ofPixels_congr {w h c : ℕ} {soa : Bool} {f g : ℕ → ℕ → ℕ → ℕ}
    (hfg : ∀ col row ch, col < w → row < h → ch < c →
      f col row ch = g col row ch) :
    Image.ofPixels w h c soa f = Image.ofPixels w h c soa g := by
  unfold Image.ofPixels
  congr 1
  funext i
  by_cases hi : i < w * h * c
  · rw [if_pos hi, if_pos hi]
    obtain ⟨h1, h2, h3, -⟩ := (Image.ofPixels w h c soa f).decodeIdx_lt_and_encode
      (show i < (Image.ofPixels w h c soa f).size from hi)
    exact hfg _ _ _ h1 h2 h3
  · rw [if_neg hi, if_neg hi]

lemma cKernelTable_of_lt (ker : KernelQ) {i : ℕ} (hi : i < ker.width * ker.height) :
    cKernelTable ker i = ker.data i := by
  simp only [cKernelTable]
  exact if_pos hi

lemma padded_read_eq_getD (img : Image) (pt : PaddingType) {pw ph : ℕ}
    {col row : ℕ} {ch : ℕ} (hc : col < img.width + pw * 2)
    (hr : row < img.height + ph * 2) (hch : ch < img.channels) :
    (img.padding pw ph pt).read col row ch = (img.padding pw ph pt).getD col row ch := by
  refine Image.read_eq_getD _ (by positivity) ?_ (by positivity) ?_ (by positivity) ?_
  · rw [Image.padding_width]
    exact_mod_cast hc
  · rw [Image.padding_height]
    exact_mod_cast hr
  · rw [Image.padding_channels]
    exact_mod_cast hch

lemma globalPixel_eq_seqPixel (img : Image) (ker : KernelQ) (pt : PaddingType)
    {x y ch : ℕ} (hx : x < img.width) (hy : y < img.height)
    (hch : ch < img.channels) (hodd : ker.width % 2 = 1)
    (hsq : ker.width = ker.height) :
    globalPixel (img.padding (ker.width / 2) (ker.height / 2) pt) ker.data
        ker.width ker.height (ker.width / 2) (ker.height / 2) x y ch
      = seqPixel (img.padding (ker.width / 2) (ker.height / 2) pt) ker
          (ker.width / 2) (ker.height / 2) x y ch := by
  unfold globalPixel seqPixel
  refine Finset.sum_congr rfl ?_
  intro ky hky
  refine Finset.sum_congr rfl ?_
  intro kx hkx
  have hky9 : ky < ker.height := Finset.mem_range.mp hky
  have hkx9 : kx < ker.width := Finset.mem_range.mp hkx
  have hcol : ((x : ℤ) + kx - (ker.width / 2 : ℕ) + (ker.width / 2 : ℕ))
      = ((x + kx : ℕ) : ℤ) := by push_cast; ring
  have hrowg : ((y : ℤ) + ky - (ker.height / 2 : ℕ) + (ker.height / 2 : ℕ))
      = ((y + ky : ℕ) : ℤ) := by push_cast; ring
  have hrows : ((y : ℤ) + ky - (ker.width / 2 : ℕ) + (ker.height / 2 : ℕ))
      = ((y + ky : ℕ) : ℤ) := by rw [hsq]; push_cast; ring
  rw [hcol, hrowg, hrows]
  rw [padded_read_eq_getD img pt (by omega) (by rw [← hsq]; omega) hch]
  rfl

lemma constantPixel_eq_globalPixel (img : Image) (ker : KernelQ) (pt : PaddingType)
    {x y ch : ℕ} :
    globalPixel (img.padding (ker.width / 2) (ker.height / 2) pt)
        (cKernelTable ker) ker.width ker.height (ker.width / 2)
        (ker.height / 2) x y ch
      = globalPixel (img.padding (ker.width / 2) (ker.height / 2) pt) ker.data
          ker.width ker.height (ker.width / 2) (ker.height / 2) x y ch := by
  unfold globalPixel
  refine Finset.sum_congr rfl ?_
  intro ky hky
  refine Finset.sum_congr rfl ?_
  intro kx hkx
  have hky9 : ky < ker.height := Finset.mem_range.mp hky
  have hkx9 : kx < ker.width := Finset.mem_range.mp hkx
  have hlt : ky * ker.width + kx < ker.width * ker.height := by
    calc ky * ker.width + kx < ker.height * ker.width := two_dim_lt hky9 hkx9
      _ = ker.width * ker.height := Nat.mul_comm _ _
  rw [cKernelTable_of_lt ker hlt]

lemma sharedPixel_eq_globalPixel (img : Image) (ker : KernelQ) (pt : PaddingType)
    (junk : ℕ → ℕ) {x y ch : ℕ} (hx : x < img.width) (hy : y < img.height)
    (hodd : ker.width % 2 = 1) (hsq : ker.width = ker.height)
    (hcov : sWidth ker.width * sHeight ker.height ≤ 2 * (TILE_WIDTH * TILE_WIDTH)) :
    sharedPixel (img.padding (ker.width / 2) (ker.height / 2) pt) ker
        (ker.width / 2) (ker.height / 2) junk x y ch
      = globalPixel (img.padding (ker.width / 2) (ker.height / 2) pt)
          (cKernelTable ker) ker.width ker.height (ker.width / 2)
          (ker.height / 2) x y ch := by
  unfold sharedPixel globalPixel
  refine Finset.sum_congr rfl ?_
  intro ky hky
  refine Finset.sum_congr rfl ?_
  intro kx hkx
  have hky9 : ky < ker.height := Finset.mem_range.mp hky
  have hkx9 : kx < ker.width := Finset.mem_range.mp hkx
  have hkw0 : 0 < ker.width := by omega
  congr 1
  have hcol : ((x : ℤ) + kx - (ker.width / 2 : ℕ) + (ker.width / 2 : ℕ))
      = ((x + kx : ℕ) : ℤ) := by push_cast; ring
  have hrowg : ((y : ℤ) + ky - (ker.height / 2 : ℕ) + (ker.height / 2 : ℕ))
      = ((y + ky : ℕ) : ℤ) := by push_cast; ring
  rw [hcol, hrowg]
  simp only [sharedMem, sWidth, sHeight, TILE_WIDTH] at hcov ⊢
  have hsx : x % 16 + kx < 16 + (ker.width - 1) := by omega
  have hsy : y % 16 + ky < 16 + (ker.height - 1) := by omega
  have hsW0 : 0 < 16 + (ker.width - 1) := by omega
  have hrepr : (y % 16 + ky) * (16 + (ker.width - 1)) + (x % 16 + kx)
      = (16 + (ker.width - 1)) * (y % 16 + ky) + (x % 16 + kx) := by ring
  have hmod : ((y % 16 + ky) * (16 + (ker.width - 1)) + (x % 16 + kx))
      % (16 + (ker.width - 1)) = x % 16 + kx := by
    rw [hrepr, Nat.mul_add_mod, Nat.mod_eq_of_lt hsx]
  have hdiv : ((y % 16 + ky) * (16 + (ker.width - 1)) + (x % 16 + kx))
      / (16 + (ker.width - 1)) = y % 16 + ky := by
    rw [hrepr, Nat.mul_add_div hsW0, Nat.div_eq_of_lt hsx, Nat.add_zero]
  have hn_cov : (y % 16 + ky) * (16 + (ker.width - 1)) + (x % 16 + kx)
      < (16 + (ker.width - 1)) * (16 + (ker.height - 1)) := by
    calc (y % 16 + ky) * (16 + (ker.width - 1)) + (x % 16 + kx)
        < (16 + (ker.height - 1)) * (16 + (ker.width - 1)) := two_dim_lt hsy hsx
      _ = (16 + (ker.width - 1)) * (16 + (ker.height - 1)) := Nat.mul_comm _ _
  have hstage : ∀ yOff : ℕ, yOff = ker.height / 2 →
      stagedValue (img.padding (ker.width / 2) (ker.height / 2) pt) ker.width
        ker.height (ker.width / 2) yOff (x / 16) (y / 16) ch
        ((y % 16 + ky) * (16 + (ker.width - 1)) + (x % 16 + kx))
      = (img.padding (ker.width / 2) (ker.height / 2) pt).read
          ((x + kx : ℕ) : ℤ) ((y + ky : ℕ) : ℤ) ch := by
    intro yOff hyOff
    simp only [stagedValue, sWidth, TILE_WIDTH]
    rw [hmod, hdiv, hyOff]
    have hgx : ((x / 16 : ℕ) : ℤ) * ((16 : ℕ) : ℤ) + ((x % 16 + kx : ℕ) : ℤ)
        - ((ker.width / 2 : ℕ) : ℤ) + ((ker.width / 2 : ℕ) : ℤ)
        = ((x + kx : ℕ) : ℤ) := by push_cast; omega
    have hgy : ((y / 16 : ℕ) : ℤ) * ((16 : ℕ) : ℤ) + ((y % 16 + ky : ℕ) : ℤ)
        - ((ker.height / 2 : ℕ) : ℤ) + ((ker.height / 2 : ℕ) : ℤ)
        = ((y + ky : ℕ) : ℤ) := by push_cast; omega
    rw [hgx, hgy]
    rw [if_pos]
    refine ⟨by positivity, ?_, by positivity, ?_⟩
    · rw [Image.padding_width]
      have : x + kx < img.width + ker.width / 2 * 2 := by omega
      exact_mod_cast this
    · rw [Image.padding_height]
      have : y + ky < img.height + ker.height / 2 * 2 := by
        have hh2 : ker.height % 2 = 1 := by omega
        omega
      exact_mod_cast this
  by_cases hb : (y % 16 + ky) * (16 + (ker.width - 1)) + (x % 16 + kx) < 16 * 16
  · rw [if_pos hb, hstage (ker.width / 2) (by rw [hsq])]
  · rw [if_neg hb, if_pos ⟨by omega, hn_cov⟩, hstage (ker.height / 2) rfl]

/-- With a square odd kernel whose tile-plus-halo extent fits inside the
`2·TILE_WIDTH²` shared-memory cells the staging loop writes (at
`TILE_WIDTH = 16`, every kernel width up to 7), all four CUDA strategies
produce exactly the raster of the sequential baseline, for every image,
padding policy, and initial shared-memory contents. -/
theorem strategies_agree_when_staging_covers (img : Image) (ker : KernelQ)
    (pt : PaddingType) (junk : ℕ → ℕ) (hodd : ker.width % 2 = 1)
    (hsq : ker.width = ker.height)
    (hcov : sWidth ker.width * sHeight ker.height
      ≤ 2 * (TILE_WIDTH * TILE_WIDTH)) :
    Parallel.convolve_global img ker pt = Sequential.convolve img ker pt ∧
    Parallel.convolve_constant img ker pt = Sequential.convolve img ker pt ∧
    Parallel.convolve_shared img ker pt junk = Sequential.convolve img ker pt ∧
    Parallel.convolve_pinned img ker pt junk = Sequential.convolve img ker pt := by
  have hglob : Parallel.convolve_global img ker pt
      = Sequential.convolve img ker pt := by
    show Image.ofPixels img.width img.height img.channels img.is_SoA
        (fun x y ch => clampStore (globalPixel
          (img.padding (ker.width / 2) (ker.height / 2) pt) ker.data
          ker.width ker.height (ker.width / 2) (ker.height / 2) x y ch))
      = Image.ofPixels img.width img.height img.channels img.is_SoA
        (fun x y ch => clampStore (seqPixel
          (img.padding (ker.width / 2) (ker.height / 2) pt) ker
          (ker.width / 2) (ker.height / 2) x y ch))
    refine Image.ofPixels_congr ?_
    intro col row ch h1 h2 h3
    exact congrArg clampStore (globalPixel_eq_seqPixel img ker pt h1 h2 h3 hodd hsq)
  have hconst : Parallel.convolve_constant img ker pt
      = Sequential.convolve img ker pt := by
    show Image.ofPixels img.width img.height img.channels img.is_SoA
        (fun x y ch => clampStore (globalPixel
          (img.padding (ker.width / 2) (ker.height / 2) pt) (cKernelTable ker)
          ker.width ker.height (ker.width / 2) (ker.height / 2) x y ch))
      = Image.ofPixels img.width img.height img.channels img.is_SoA
        (fun x y ch => clampStore (seqPixel
          (img.padding (ker.width / 2) (ker.height / 2) pt) ker
          (ker.width / 2) (ker.height / 2) x y ch))
    refine Image.ofPixels_congr ?_
    intro col row ch h1 h2 h3
    exact congrArg clampStore
      ((constantPixel_eq_globalPixel img ker pt).trans
        (globalPixel_eq_seqPixel img ker pt h1 h2 h3 hodd hsq))
  have hshared : Parallel.convolve_shared img ker pt junk
      = Sequential.convolve img ker pt := by
    show Image.ofPixels img.width img.height img.channels img.is_SoA
        (fun x y ch => clampStore (sharedPixel
          (img.padding (ker.width / 2) (ker.height / 2) pt) ker
          (ker.width / 2) (ker.height / 2) junk x y ch))
      = Image.ofPixels img.width img.height img.channels img.is_SoA
        (fun x y ch => clampStore (seqPixel
          (img.padding (ker.width / 2) (ker.height / 2) pt) ker
          (ker.width / 2) (ker.height / 2) x y ch))
    refine Image.ofPixels_congr ?_
    intro col row ch h1 h2 h3
    refine congrArg clampStore ?_
    calc sharedPixel (img.padding (ker.width / 2) (ker.height / 2) pt) ker
          (ker.width / 2) (ker.height / 2) junk col row ch
        = globalPixel (img.padding (ker.width / 2) (ker.height / 2) pt)
            (cKernelTable ker) ker.width ker.height (ker.width / 2)
            (ker.height / 2) col row ch :=
          sharedPixel_eq_globalPixel img ker pt junk h1 h2 hodd hsq hcov
      _ = globalPixel (img.padding (ker.width / 2) (ker.height / 2) pt)
            ker.data ker.width ker.height (ker.width / 2)
            (ker.height / 2) col row ch :=
          constantPixel_eq_globalPixel img ker pt
      _ = seqPixel (img.padding (ker.width / 2) (ker.height / 2) pt) ker
            (ker.width / 2) (ker.height / 2) col row ch :=
          globalPixel_eq_seqPixel img ker pt h1 h2 h3 hodd hsq
  exact ⟨hglob, hconst, hshared, hshared⟩
